import Mathlib

/-!
# Verification of the feattle-rs core (`feattle-core`)

A shallow embedding, in Lean 4, of the core of the `feattle-rs` feature-flag
library: the typed value codec (`src/feattle-core/src/feattle_value.rs` and
`src/feattle-core/src/json_reading.rs`), the per-flag record
(`src/feattle-core/src/__internal.rs`), and the reload/update protocol of the
registry (`src/feattle-core/src/lib.rs`), together with theorems checking the
natural-language specification against this embedding.

Machine integers are embedded as `Int`/`Nat` with explicit bounds, JSON values
as an inductive mirroring `serde_json::Value` (with `serde_json::Number`'s
three-variant representation: `PosInt(u64)`, `NegInt(i64)`, `Float(f64)`),
timestamps (`DateTime<Utc>`) as opaque `Int` ticks, and floating-point numbers
abstractly by their classification (finite / NaN / infinite), which is the only
aspect of floats the verified claims depend on.
-/

namespace Feattles

/-! ## Floating point values, abstracted by classification

The repository code only ever uses floats through `serde_json`'s
`Number::from_f64` (documented to return `None` for NaN and infinite inputs)
and through lossless finite conversions.  We therefore embed an `f64` as either
a finite value (carrying an exact rational payload) or one of the three
non-finite classes. -/

inductive F64 where
  | finite (val : Rat)
  | nan
  | infinite
  | negInfinite
deriving DecidableEq, Repr

def F64.isFinite : F64 → Bool
  | .finite _ => true
  | _ => false

/-- An `f32`, same abstraction. Its payload is the exact rational value, so the
lossless widening `f32 → f64` (Rust `as f64`) keeps the payload. -/
inductive F32 where
  | finite (val : Rat)
  | nan
  | infinite
  | negInfinite
deriving DecidableEq, Repr

def F32.isFinite : F32 → Bool
  | .finite _ => true
  | _ => false

/-- Rust `value as f64` applied to an `f32`: exact, preserves the class. -/
def F32.toF64 : F32 → F64
  | .finite v => .finite v
  | .nan => .nan
  | .infinite => .infinite
  | .negInfinite => .negInfinite

/-! ## `serde_json` values

`serde_json::Number` stores either a `u64`, a negative `i64`, or a finite
`f64`.  `Value` is the usual JSON tree; objects are association lists ordered
by key, as produced by `serde_json::Map` (a `BTreeMap` when the
`preserve_order` feature is off, which is how this repository uses it). -/

def i64Max : Int := 2 ^ 63 - 1
def i64Min : Int := -(2 ^ 63)
def u64Max : Int := 2 ^ 64 - 1

/-- Two's-complement wrap-around of `i32` arithmetic: the result of a Rust
`i32` operation in release mode (`-(2^31) ≤ wrap32 n ≤ 2^31 - 1`, and
`wrap32 n = n` exactly when `n` is already in that range).  A debug build
panics on overflow instead; either way, an overflowing `i32` operation does
not produce the unbounded mathematical result. -/
def wrap32 (n : Int) : Int := (n + 2 ^ 31) % 2 ^ 32 - 2 ^ 31

inductive Number where
  /-- A non-negative integer, stored as `u64`; payload `n ≤ u64Max`. -/
  | posInt (n : Nat)
  /-- A negative integer, stored as `i64`; payload `i64Min ≤ n < 0`. -/
  | negInt (n : Int)
  /-- A finite float, built through `Number::from_f64`. -/
  | float (f : Rat)
deriving DecidableEq, Repr

/-- `serde_json::Number::from_f64`: `Some` exactly for finite floats. -/
def Number.from_f64 : F64 → Option Number
  | .finite v => some (.float v)
  | _ => none

/-- `serde_json::Number::as_i64`: integers representable as `i64`. -/
def Number.as_i64 : Number → Option Int
  | .posInt n => if (n : Int) ≤ i64Max then some (n : Int) else none
  | .negInt n => some n
  | .float _ => none

/-- `serde_json::Number::as_u64`. -/
def Number.as_u64 : Number → Option Int
  | .posInt n => some (n : Int)
  | .negInt _ => none
  | .float _ => none

inductive Value where
  | null
  | bool (b : Bool)
  | num (n : Number)
  | str (s : String)
  | arr (items : List Value)
  | obj (fields : List (String × Value))

/-- `json_kind` from `src/feattle-core/src/json_reading.rs`. -/
def jsonKind : Value → String
  | .null => "Null"
  | .bool _ => "Bool"
  | .num _ => "Number"
  | .str _ => "String"
  | .arr _ => "Array"
  | .obj _ => "Object"

/-! ## `FromJsonError` (`src/feattle-core/src/json_reading.rs`)

The `ParseError` variant boxes an opaque `dyn Error` cause in the source; the
cause is abstracted away here. -/

inductive FromJsonError where
  | wrongKind (expected actual : String)
  | parseError
deriving DecidableEq, Repr

/-- `extract_bool`. -/
def extractBool : Value → Except FromJsonError Bool
  | .bool b => .ok b
  | v => .error (.wrongKind "Bool" (jsonKind v))

/-- `extract_i64` (via `Value::as_i64`). -/
def extractI64 : Value → Except FromJsonError Int
  | .num n =>
    match n.as_i64 with
    | some i => .ok i
    | none => .error (.wrongKind "Number::i64" "Number")
  | v => .error (.wrongKind "Number::i64" (jsonKind v))

/-- `extract_str`. -/
def extractStr : Value → Except FromJsonError String
  | .str s => .ok s
  | v => .error (.wrongKind "String" (jsonKind v))

/-- `extract_array`. -/
def extractArray : Value → Except FromJsonError (List Value)
  | .arr items => .ok items
  | v => .error (.wrongKind "Array" (jsonKind v))

/-- `extract_object`. -/
def extractObject : Value → Except FromJsonError (List (String × Value))
  | .obj fields => .ok fields
  | v => .error (.wrongKind "Object" (jsonKind v))

/-! ## Integer widths

All ten integer widths that `impl_try_from_value_i64!` is instantiated at in
`src/feattle-core/src/feattle_value.rs` (`usize`/`isize` taken as 64-bit). -/

inductive IntWidth where
  | u8 | i8 | u16 | i16 | u32 | i32 | u64 | i64 | usize | isize
deriving DecidableEq, Repr

def IntWidth.lo : IntWidth → Int
  | .u8 | .u16 | .u32 | .u64 | .usize => 0
  | .i8 => -(2 ^ 7)
  | .i16 => -(2 ^ 15)
  | .i32 => -(2 ^ 31)
  | .i64 | .isize => i64Min

def IntWidth.hi : IntWidth → Int
  | .u8 => 2 ^ 8 - 1
  | .i8 => 2 ^ 7 - 1
  | .u16 => 2 ^ 16 - 1
  | .i16 => 2 ^ 15 - 1
  | .u32 => 2 ^ 32 - 1
  | .i32 => 2 ^ 31 - 1
  | .u64 | .usize => u64Max
  | .i64 | .isize => i64Max

/-! ## The universe of feattle value types

A deep embedding of the (non-float) types for which
`src/feattle-core/src/feattle_value.rs` implements `FeattleValue`:
`bool`, the integer widths, `String`, `feattle_enum!` string enums, `Vec<T>`,
`BTreeSet<T>`, `BTreeMap<String, V>` and `Option<T>`.  `interp` maps each type
to its Lean carrier: a `BTreeSet` is its sorted element list, a `BTreeMap` its
sorted association list, an enum the index of its variant. -/

inductive FTy where
  | bool
  | int (w : IntWidth)
  | str
  | strEnum (variants : List String)
  | list (t : FTy)
  | set (t : FTy)
  | map (t : FTy)
  | option (t : FTy)
deriving DecidableEq, Repr

@[reducible] def interp : FTy → Type
  | .bool => Bool
  | .int _ => Int
  | .str => String
  | .strEnum _ => Nat
  | .list t => List (interp t)
  | .set t => List (interp t)
  | .map t => List (String × interp t)
  | .option t => Option (interp t)

/-- Lexicographic comparison of lists, as derived by Rust for `Vec`/slices and
used by `BTreeSet`/`BTreeMap` iteration order comparison. -/
def cmpList (c : α → α → Ordering) : List α → List α → Ordering
  | [], [] => .eq
  | [], _ :: _ => .lt
  | _ :: _, [] => .gt
  | x :: xs, y :: ys =>
    match c x y with
    | .eq => cmpList c xs ys
    | o => o

/-- The `Ord` Rust derives/implements on each supported carrier
(`false < true`; numeric order; byte-lexicographic strings, which for UTF-8
agrees with `String`'s order here; declaration order for enum variants;
lexicographic sequences; `None < Some`). -/
def cmpF : (t : FTy) → interp t → interp t → Ordering
  | .bool, a, b =>
    match a, b with
    | false, false => .eq
    | false, true => .lt
    | true, false => .gt
    | true, true => .eq
  | .int _, a, b => compare a b
  | .str, a, b => compare a b
  | .strEnum _, a, b => compare a b
  | .list t, a, b => cmpList (cmpF t) a b
  | .set t, a, b => cmpList (cmpF t) a b
  | .map t, a, b =>
    cmpList (fun p q =>
      match compare p.1 q.1 with
      | .eq => cmpF t p.2 q.2
      | o => o) a b
  | .option t, a, b =>
    match a, b with
    | none, none => .eq
    | none, some _ => .lt
    | some _, none => .gt
    | some x, some y => cmpF t x y

/-- Ordered insertion keeping the first of equal elements: the effect of
`BTreeSet::insert` on the sorted element list. -/
def insertSet (c : α → α → Ordering) (x : α) : List α → List α
  | [] => [x]
  | y :: ys =>
    match c x y with
    | .lt => x :: y :: ys
    | .eq => y :: ys
    | .gt => y :: insertSet c x ys

/-- Ordered insertion by key replacing the value on an equal key: the effect of
`BTreeMap::insert` on the sorted association list. -/
def insertMap (k : String) (v : α) : List (String × α) → List (String × α)
  | [] => [(k, v)]
  | (k', v') :: rest =>
    match compare k k' with
    | .lt => (k, v) :: (k', v') :: rest
    | .eq => (k, v) :: rest
    | .gt => (k', v') :: insertMap k v rest

/-- Collecting an iterator of pairs into a `serde_json::Map` (a `BTreeMap`):
insert the pairs one by one, in iteration order. -/
def collectObj (pairs : List (String × Value)) : List (String × Value) :=
  pairs.foldl (fun acc p => insertMap p.1 p.2 acc) []

/-- `FeattleValue::as_json` for every type of the universe, mirroring
`src/feattle-core/src/feattle_value.rs` (integers through
`serde_json::to_value`, strings through `to_string`, an enum through its
variant name, maps collecting `(key.to_string(), value.as_json())` pairs). -/
def asJson : (t : FTy) → interp t → Value
  | .bool, b => .bool b
  | .int _, n => .num (if 0 ≤ n then .posInt n.toNat else .negInt n)
  | .str, s => .str s
  | .strEnum variants, i => .str (variants.getD i "")
  | .list t, l => .arr (l.map (asJson t))
  | .set t, l => .arr (l.map (asJson t))
  | .map t, m => .obj (collectObj (m.map (fun p => (p.1, asJson t p.2))))
  | .option t, o =>
    match o with
    | none => .null
    | some x => asJson t x

/-- The `Vec::try_from_json` loop: parse each item, propagating the first
error. -/
def tryList (f : Value → Except FromJsonError α) : List Value → Except FromJsonError (List α)
  | [] => .ok []
  | x :: xs =>
    match f x with
    | .error e => .error e
    | .ok v =>
      match tryList f xs with
      | .error e => .error e
      | .ok vs => .ok (v :: vs)

/-- The `BTreeSet::try_from_json` loop: parse each item, inserting as it goes. -/
def trySet (f : Value → Except FromJsonError α) (c : α → α → Ordering) :
    List Value → List α → Except FromJsonError (List α)
  | [], acc => .ok acc
  | x :: xs, acc =>
    match f x with
    | .error e => .error e
    | .ok v => trySet f c xs (insertSet c v acc)

/-- The `BTreeMap::try_from_json` loop over the object's fields.  The key type
of the universe is `String`, whose `FromStr` never fails, so only the value
parse can error. -/
def tryMap (f : Value → Except FromJsonError α) :
    List (String × Value) → List (String × α) → Except FromJsonError (List (String × α))
  | [], acc => .ok acc
  | (k, x) :: xs, acc =>
    match f x with
    | .error e => .error e
    | .ok v => tryMap f xs (insertMap k v acc)

/-- `feattle_enum!`'s generated `FromStr`: match the string against the variant
names in declaration order, returning the (index of the) first match, or a
`ParseError` ("Matching variant not found") when none matches. -/
def enumFromStrAux (variants : List String) (s : String) (i : Nat) : Except FromJsonError Nat :=
  match variants with
  | [] => .error .parseError
  | v :: rest => if v = s then .ok i else enumFromStrAux rest s (i + 1)

def enumFromStr (variants : List String) (s : String) : Except FromJsonError Nat :=
  enumFromStrAux variants s 0

/-- `FeattleValue::try_from_json` for every type of the universe, mirroring
`src/feattle-core/src/feattle_value.rs`: integers via `extract_i64` plus a
checked narrowing, strings/enums via `extract_str` plus `FromStr`, lists via
the push loop, sets/maps via the insert loops, `Option` treating `Null` as
`None` and delegating otherwise. -/
def tryFromJson : (t : FTy) → Value → Except FromJsonError (interp t)
  | .bool, v => extractBool v
  | .int w, v =>
    match extractI64 v with
    | .error e => .error e
    | .ok n => if w.lo ≤ n ∧ n ≤ w.hi then .ok n else .error .parseError
  | .str, v => extractStr v
  | .strEnum variants, v =>
    match extractStr v with
    | .error e => .error e
    | .ok s => enumFromStr variants s
  | .list t, v =>
    match extractArray v with
    | .error e => .error e
    | .ok items => tryList (tryFromJson t) items
  | .set t, v =>
    match extractArray v with
    | .error e => .error e
    | .ok items => trySet (tryFromJson t) (cmpF t) items []
  | .map t, v =>
    match extractObject v with
    | .error e => .error e
    | .ok fields => tryMap (tryFromJson t) fields []
  | .option t, v =>
    match v with
    | .null => .ok none
    | other => (tryFromJson t other).map some

/-! ## `as_json` for floats (`f32`/`f64`)

The source is `Value::Number(Number::from_f64(..).unwrap())`
(`src/feattle-core/src/feattle_value.rs`); the `unwrap` panics exactly when
`from_f64` returns `None`.  The panic is modelled as `none`. -/

/-- `f64::as_json`; `none` models the `unwrap` panic. -/
def f64AsJson (v : F64) : Option Value :=
  (Number.from_f64 v).map Value.num

/-- `f32::as_json` (`*self as f64` then `from_f64`); `none` models the panic. -/
def f32AsJson (v : F32) : Option Value :=
  (Number.from_f64 v.toF64).map Value.num

/-! ## Overviews

`iter_overview` and the per-type `overview` implementations from
`src/feattle-core/src/feattle_value.rs`. -/

/-- The `while let` loop body of `iter_overview`: `i` is the enumeration index,
`acc` the string built so far.  At the fourth element (`i == MAX_ITEMS`, with
`MAX_ITEMS = 3`) it appends `", ... N more"` (the current element plus the
not-yet-consumed rest) and stops. -/
def iterOverviewAux (acc : String) : Nat → List String → String
  | _, [] => acc
  | i, x :: xs =>
    if i == 3 then acc ++ ", ... " ++ toString (xs.length + 1) ++ " more"
    else iterOverviewAux (acc ++ (if i > 0 then ", " else "") ++ x) (i + 1) xs

/-- `iter_overview`, taking the elements' individual overviews. -/
def iterOverview (items : List String) : String :=
  iterOverviewAux "" 0 items

/-- The `keys_by_value` accumulation of `BTreeMap::overview`: a `BTreeMap`
from a value overview to the `Vec` of keys sharing it
(`keys_by_value.entry(value.overview()).or_default().push(key)`). -/
def groupInsert : List (String × List String) → String → String → List (String × List String)
  | [], ov, k => [(ov, [k])]
  | (ov', ks) :: rest, ov, k =>
    match compare ov ov' with
    | .lt => (ov, [k]) :: (ov', ks) :: rest
    | .eq => (ov', ks ++ [k]) :: rest
    | .gt => (ov', ks) :: groupInsert rest ov k

/-- `BTreeMap::overview` given the `(key, value overview)` pairs in key order:
group keys by equal value overview, render each group as
`"{keys overview}: {value overview}"`, and wrap the groups' overview in
braces. -/
def mapOverview (pairs : List (String × String)) : String :=
  let grouped := pairs.foldl (fun acc p => groupInsert acc p.2 p.1) []
  let rendered := grouped.map (fun g => iterOverview g.2 ++ ": " ++ g.1)
  "\x7b" ++ iterOverview rendered ++ "\x7d"

/-- `FeattleValue::overview` for every type of the universe (`to_string` for
scalars, the variant name for enums, bracketed truncated lists for sequences
and sets, grouped rendering for maps, `None`/`Some(..)` for options). -/
def overviewF : (t : FTy) → interp t → String
  | .bool, b => if b then "true" else "false"
  | .int _, n => toString n
  | .str, s => s
  | .strEnum variants, i => variants.getD i ""
  | .list t, l => "[" ++ iterOverview (l.map (overviewF t)) ++ "]"
  | .set t, l => "[" ++ iterOverview (l.map (overviewF t)) ++ "]"
  | .map t, m => mapOverview (m.map (fun p => (p.1, overviewF t p.2)))
  | .option t, o =>
    match o with
    | none => "None"
    | some x => "Some(" ++ overviewF t x ++ ")"

/-! ## Valid values

`goodValue t v` holds when `v` is a value an actual Rust program can hold at
type `t` (integers in range, enum indices denoting variants of a `feattle_enum!`
with its necessarily distinct variant names, set/map lists strictly sorted as a
`BTreeSet`/`BTreeMap` keeps them), further restricted by the two side
conditions the round-trip needs: integer values representable in `i64`, and no
`Some(None)` immediately under an `Option`. -/

def Value.isNull : Value → Bool
  | .null => true
  | _ => false

/-- `Pairwise`-style strict sortedness check by a comparison function. -/
def pairwiseSorted (r : α → α → Bool) : List α → Bool
  | [] => true
  | x :: xs => xs.all (r x) && pairwiseSorted r xs

def goodValue : (t : FTy) → interp t → Bool
  | .bool, _ => true
  | .int w, n => decide (w.lo ≤ n) && decide (n ≤ w.hi) && decide (n ≤ i64Max)
  | .str, _ => true
  | .strEnum variants, i => decide (i < variants.length) && decide variants.Nodup
  | .list t, l => l.all (goodValue t)
  | .set t, l =>
    l.all (goodValue t) &&
      pairwiseSorted (fun a b =>
        decide (cmpF t a b = .lt) && decide (cmpF t b a = .gt)) l
  | .map t, m =>
    m.all (fun p => goodValue t p.2) &&
      pairwiseSorted (fun p q =>
        decide (compare p.1 q.1 = .lt) && decide (compare q.1 p.1 = .gt)) m
  | .option t, o =>
    match o with
    | none => true
    | some x => goodValue t x && !(asJson t x).isNull

/-! ## Persisted data shapes (`src/feattle-core/src/persist.rs`)

`DateTime<Utc>` timestamps are opaque `Int` ticks; `Utc::now()` is passed in
as an explicit `now` argument of each operation. -/

/-- `persist::CurrentValue`. -/
structure CurrentValue where
  modified_at : Int
  modified_by : String
  value : Value

/-- `persist::CurrentValues`; the `feattles` `BTreeMap` is an association
list.  The `version` field is an `i32` in the source: it is carried as an
`Int` here, with the one arithmetic operation performed on it — the `+= 1` of
`update` — wrapped through `wrap32`, so states built by the modelled
operations keep it inside the `i32` range. -/
structure CurrentValues where
  version : Int
  date : Int
  feattles : List (String × CurrentValue)

/-- `persist::HistoryEntry`; a `ValueHistory` is its list of entries. -/
structure HistoryEntry where
  value : Value
  value_overview : String
  modified_at : Int
  modified_by : String

/-- `BTreeMap::get(key).cloned()` on the snapshot's `feattles` map. -/
def cvGet (fs : List (String × CurrentValue)) (key : String) : Option CurrentValue :=
  match fs with
  | [] => none
  | (k, v) :: rest => if k = key then some v else cvGet rest key

/-- `BTreeMap::insert(key, value)` on the snapshot's `feattles` map (position
within the list is irrelevant to every observation made of it here). -/
def cvInsert (fs : List (String × CurrentValue)) (key : String) (v : CurrentValue) :
    List (String × CurrentValue) :=
  match fs with
  | [] => [(key, v)]
  | (k, v') :: rest => if k = key then (key, v) :: rest else (k, v') :: cvInsert rest key v

/-- `last_reload::LastReload`. -/
inductive LastReload where
  | never
  | noData (reload_date : Int)
  | data (reload_date : Int) (version : Int) (version_date : Int)

/-! ## Flag records (`src/feattle-core/src/__internal.rs`) -/

/-- `__internal::Feattle<T>`: one per declared flag. -/
structure Feattle where
  key : String
  description : String
  ty : FTy
  value : interp ty
  default : interp ty
  current_value : Option CurrentValue

/-- `Feattle::new`. -/
def Feattle.new (key description : String) (ty : FTy) (default : interp ty) : Feattle :=
  { key, description, ty, value := default, default, current_value := none }

/-- `Feattle::update` (named `try_update` in the macro-facing trait): first
`mem::replace`s `current_value` with the new entry, then re-parses.  Note that
on a parse failure the function returns the error with `current_value` already
replaced and only the typed `value` untouched; the returned record is the state
of `&mut self` after the call. -/
def Feattle.update (f : Feattle) (v : Option CurrentValue) :
    Feattle × Except FromJsonError (Option CurrentValue) :=
  let old := f.current_value
  match v with
  | none => ({ f with current_value := v, value := f.default }, .ok old)
  | some cv =>
    match tryFromJson f.ty cv.value with
    | .ok newVal => ({ f with current_value := v, value := newVal }, .ok old)
    | .error e => ({ f with current_value := v }, .error e)

/-- The generated `FeattlesStruct::try_update` dispatch: route to the record
with the given key.  The `_ => unreachable!()` arm (hit only when the key is
not declared, which every caller checks beforehand) is modelled as a no-op. -/
def structUpdate (fs : List Feattle) (key : String) (v : Option CurrentValue) :
    List Feattle × Except FromJsonError (Option CurrentValue) :=
  match fs with
  | [] => ([], .ok none)
  | f :: rest =>
    if f.key = key then
      let r := f.update v
      (r.1 :: rest, r.2)
    else
      let r := structUpdate rest key v
      (f :: r.1, r.2)

/-- The record-level part of `definition()`: the current value's overview. -/
def recordOverview (fs : List Feattle) (key : String) : String :=
  match fs with
  | [] => ""
  | f :: rest => if f.key = key then overviewF f.ty f.value else recordOverview rest key

/-! ## The registry and its persistence port

The whole system state: the `InnerFeattles` fields behind the `RwLock`
(`last_reload`, `current_values`, `feattles_struct`), the backing store of the
persistence port (what a `Persist` implementor like the tests'
`MockPersistence` holds), an error oracle, and a log of the port calls made.

Each port call consumes one oracle entry; `some e` makes that call fail with
the port error `e`, `none` (or an exhausted oracle) makes it succeed.  This
lets a theorem quantify over every pattern of persistence failures. -/

/-- Opaque backend-specific `Persist::Error`. -/
abbrev PError := Nat

inductive PortOp where
  | saveCurrent
  | loadCurrent
  | saveHistory (key : String)
  | loadHistory (key : String)

structure Sys where
  last_reload : LastReload
  current_values : Option CurrentValues
  feattles_struct : List Feattle
  persistCurrent : Option CurrentValues
  persistHistory : List (String × List HistoryEntry)
  oracle : List (Option PError)
  log : List PortOp

/-- `Feattles::new`: every record at its default, nothing loaded. -/
def Sys.new (fs : List Feattle) (oracle : List (Option PError)) : Sys :=
  { last_reload := .never
    current_values := none
    feattles_struct := fs.map (fun f => Feattle.new f.key f.description f.ty f.default)
    persistCurrent := none
    persistHistory := []
    oracle := oracle
    log := [] }

/-- `Feattles::keys()`: the static declaration-order key list. -/
def Sys.keys (s : Sys) : List String := s.feattles_struct.map (·.key)

def takeOracle : List (Option PError) → Option PError × List (Option PError)
  | [] => (none, [])
  | o :: rest => (o, rest)

/-- `Persist::load_current`. -/
def doLoadCurrent (s : Sys) : Sys × Except PError (Option CurrentValues) :=
  let t := takeOracle s.oracle
  let s' := { s with oracle := t.2, log := s.log ++ [.loadCurrent] }
  match t.1 with
  | some e => (s', .error e)
  | none => (s', .ok s.persistCurrent)

/-- `Persist::save_current`. -/
def doSaveCurrent (s : Sys) (cv : CurrentValues) : Sys × Option PError :=
  let t := takeOracle s.oracle
  let s' := { s with oracle := t.2, log := s.log ++ [.saveCurrent] }
  match t.1 with
  | some e => (s', some e)
  | none => ({ s' with persistCurrent := some cv }, none)

/-- Association-list lookup for the persisted histories. -/
def histGet (hs : List (String × List HistoryEntry)) (key : String) :
    Option (List HistoryEntry) :=
  match hs with
  | [] => none
  | (k, v) :: rest => if k = key then some v else histGet rest key

def histPut (hs : List (String × List HistoryEntry)) (key : String)
    (v : List HistoryEntry) : List (String × List HistoryEntry) :=
  match hs with
  | [] => [(key, v)]
  | (k, v') :: rest => if k = key then (key, v) :: rest else (k, v') :: histPut rest key v

/-- `Persist::load_history`. -/
def doLoadHistory (s : Sys) (key : String) :
    Sys × Except PError (Option (List HistoryEntry)) :=
  let t := takeOracle s.oracle
  let s' := { s with oracle := t.2, log := s.log ++ [.loadHistory key] }
  match t.1 with
  | some e => (s', .error e)
  | none => (s', .ok (histGet s.persistHistory key))

/-- `Persist::save_history`. -/
def doSaveHistory (s : Sys) (key : String) (h : List HistoryEntry) : Sys × Option PError :=
  let t := takeOracle s.oracle
  let s' := { s with oracle := t.2, log := s.log ++ [.saveHistory key] }
  match t.1 with
  | some e => (s', some e)
  | none => ({ s' with persistHistory := histPut s.persistHistory key h }, none)

/-! ## The reload/update protocol (`src/feattle-core/src/lib.rs`) -/

/-- `UpdateError`. -/
inductive UpdateError where
  | neverReloaded
  | unknownKey (key : String)
  | parsing (e : FromJsonError)
  | persistence (e : PError)

/-- `HistoryError`. -/
inductive HistoryError where
  | unknownKey (key : String)
  | persistence (e : PError)

/-- The per-key loop of `Feattles::reload` over `self.keys()`: look each key up
in the loaded snapshot and `try_update` the matching record, ignoring (only
logging) per-key errors. -/
def reloadKeys (ks : List String) (entries : List (String × CurrentValue))
    (fs : List Feattle) : List Feattle :=
  match ks with
  | [] => fs
  | k :: rest => reloadKeys rest entries (structUpdate fs k (cvGet entries k)).1

/-- `Feattles::reload`. -/
def reloadOp (s : Sys) (now : Int) : Sys × Except PError Unit :=
  match doLoadCurrent s with
  | (s, .error e) => (s, .error e)
  | (s, .ok none) =>
    ({ s with
        last_reload := .noData now
        current_values := some { version := 0, date := now, feattles := [] } }, .ok ())
  | (s, .ok (some cv)) =>
    ({ s with
        last_reload := .data now cv.version cv.date
        feattles_struct := reloadKeys s.keys cv.feattles s.feattles_struct
        current_values := some cv }, .ok ())

/-- The `rollback_step_1` closure of `Feattles::update`: best-effort
`try_update` back to the old entry, ignoring its result. -/
def rollbackStep1 (s : Sys) (key : String) (old : Option CurrentValue) : Sys :=
  { s with feattles_struct := (structUpdate s.feattles_struct key old).1 }

/-- Step 3 of `Feattles::update`: persist the new current values; on failure
roll back step 1 and then try to re-save the old history (a failure of that
second rollback is only logged); on success commit the new snapshot in memory
(step 4). -/
def updateStep3 (s : Sys) (key : String) (new_values : CurrentValues)
    (old_value : Option CurrentValue) (old_history : List HistoryEntry) :
    Sys × Except UpdateError Unit :=
  match doSaveCurrent s new_values with
  | (s, some e) =>
    let s := rollbackStep1 s key old_value
    let s := (doSaveHistory s key old_history).1
    (s, .error (.persistence e))
  | (s, none) =>
    ({ s with current_values := some new_values }, .ok ())

/-- Step 2 of `Feattles::update`: load the history, append the new entry (whose
overview is read from the already-updated record), save it back; on any port
failure roll back step 1. -/
def updateStep2 (s : Sys) (key : String) (new_value : CurrentValue)
    (new_values : CurrentValues) (old_value : Option CurrentValue) :
    Sys × Except UpdateError Unit :=
  match doLoadHistory s key with
  | (s, .error e) => (rollbackStep1 s key old_value, .error (.persistence e))
  | (s, .ok oldOpt) =>
    let old_history := oldOpt.getD []
    let entry : HistoryEntry :=
      { value := new_value.value
        value_overview := recordOverview s.feattles_struct key
        modified_at := new_value.modified_at
        modified_by := new_value.modified_by }
    let new_history := old_history ++ [entry]
    match doSaveHistory s key new_history with
    | (s, some e) => (rollbackStep1 s key old_value, .error (.persistence e))
    | (s, none) => updateStep3 s key new_values old_value old_history

/-- `Feattles::update`: check the key, build the incremented snapshot clone,
apply step 1 in memory (whose mutation survives even a parse failure), then run
steps 2-4. -/
def updateOp (s : Sys) (key : String) (value : Value) (modified_by : String)
    (now : Int) : Sys × Except UpdateError Unit :=
  if key ∈ s.keys then
    let new_value : CurrentValue := { modified_at := now, modified_by, value }
    match s.current_values with
    | none => (s, .error .neverReloaded)
    | some cur =>
      let new_values : CurrentValues :=
        { version := wrap32 (cur.version + 1)
          date := cur.date
          feattles := cvInsert cur.feattles key new_value }
      match structUpdate s.feattles_struct key (some new_value) with
      | (fs, .error e) => ({ s with feattles_struct := fs }, .error (.parsing e))
      | (fs, .ok old_value) =>
        updateStep2 { s with feattles_struct := fs } key new_value new_values old_value
  else
    (s, .error (.unknownKey key))

/-- `Feattles::history`. -/
def historyOp (s : Sys) (key : String) : Sys × Except HistoryError (List HistoryEntry) :=
  if key ∈ s.keys then
    match doLoadHistory s key with
    | (s, .error e) => (s, .error (.persistence e))
    | (s, .ok h) => (s, .ok (h.getD []))
  else
    (s, .error (.unknownKey key))

/-! ## Derived observations and invariants -/

/-- The record declared for a key (the one `try_update`'s dispatch routes to). -/
def findRecord (fs : List Feattle) (key : String) : Option Feattle :=
  match fs with
  | [] => none
  | f :: rest => if f.key = key then some f else findRecord rest key

/-- The record invariant every reachable record satisfies: with no stored
entry the record holds its default, and a stored entry re-parses to the current
typed value.  (`Feattle::update` establishes it whenever it succeeds; a failed
`Feattle::update` breaks it, which is exactly why the rollback of
`Feattles::update` is only best-effort.) -/
def recordConsistent (f : Feattle) : Prop :=
  match f.current_value with
  | none => f.value = f.default
  | some e => tryFromJson f.ty e.value = .ok f.value

/-- One request of a sequence of `update()` calls. -/
structure UpdReq where
  key : String
  value : Value
  modified_by : String
  now : Int

/-- Run a sequence of `update()` calls, recording each call's post-state and
result. -/
def runUpdates (s : Sys) : List UpdReq → List (Sys × Except UpdateError Unit)
  | [] => []
  | r :: rest =>
    let step := updateOp s r.key r.value r.modified_by r.now
    step :: runUpdates step.1 rest

/-- The version property of a trace of `update()` calls: each successful call
persists a snapshot whose version is the wrapped `i32` increment of the
previously persisted snapshot's version — which is exactly `+ 1` whenever that
previous version is a valid `i32` strictly below `i32::MAX` — and each failed
call leaves the persisted snapshot untouched. -/
def versionProp : Sys → List (Sys × Except UpdateError Unit) → Prop
  | _, [] => True
  | sPrev, step :: rest =>
    (match step.2 with
     | .ok _ => ∀ pc, sPrev.persistCurrent = some pc →
         ∃ nc, step.1.persistCurrent = some nc
           ∧ nc.version = wrap32 (pc.version + 1)
           ∧ (IntWidth.i32.lo ≤ pc.version → pc.version < IntWidth.i32.hi →
               nc.version = pc.version + 1)
     | .error _ => step.1.persistCurrent = sPrev.persistCurrent)
    ∧ versionProp step.1 rest

/-! ## Concrete states used to settle individual claims -/

/-- A stored entry whose JSON value does not parse as an `i32`. -/
def badEntry : CurrentValue :=
  { modified_at := 7, modified_by := "eve", value := Value.str "bad" }

/-- A registry whose single flag `a : i32` carries a stored entry that fails to
parse (recording exactly the state a failed parse leaves behind, reachable
through a `reload` against a corrupt snapshot): the rollback of a later
`update` is abandoned on it. -/
def c1BadSys : Sys :=
  { last_reload := .noData 0
    current_values := some { version := 1, date := 0, feattles := [("a", badEntry)] }
    feattles_struct := [{ Feattle.new "a" "" (FTy.int .i32) 0 with current_value := some badEntry }]
    persistCurrent := some { version := 1, date := 0, feattles := [("a", badEntry)] }
    persistHistory := []
    oracle := [none, none, some 3]
    log := [] }

/-- A small healthy registry (one `i32` flag at its default, one reload done),
with the oracle set up to fail the third port call (`save_current`). -/
def c1GoodSys : Sys :=
  { last_reload := .noData 0
    current_values := some { version := 0, date := 0, feattles := [] }
    feattles_struct := [Feattle.new "a" "" (FTy.int .i32) 0]
    persistCurrent := none
    persistHistory := []
    oracle := [none, none, some 7]
    log := [] }

/-- A well-formed stored entry for an `i32` flag. -/
def goodEntryB : CurrentValue :=
  { modified_at := 2, modified_by := "bob", value := Value.num (.posInt 9) }

/-- A persisted snapshot with a corrupt entry for flag `a` and a good one for
flag `b`. -/
def c5Snapshot : CurrentValues :=
  { version := 2, date := 1, feattles := [("a", badEntry), ("b", goodEntryB)] }

/-- A fresh two-flag registry whose persistence backend holds `c5Snapshot`. -/
def c5Sys : Sys :=
  { last_reload := .never
    current_values := none
    feattles_struct := [Feattle.new "a" "" (FTy.int .i32) 0,
                        Feattle.new "b" "" (FTy.int .i32) 17]
    persistCurrent := some c5Snapshot
    persistHistory := []
    oracle := [none]
    log := [] }

/-- A registry that has reloaded a stored snapshot carrying version
`i32::MAX` — a perfectly legal wire value — with one `i32` flag at its
default and an all-success oracle. -/
def c3WrapSys : Sys :=
  { last_reload := .data 0 2147483647 0
    current_values := some { version := 2147483647, date := 0, feattles := [] }
    feattles_struct := [Feattle.new "a" "" (FTy.int .i32) 0]
    persistCurrent := some { version := 2147483647, date := 0, feattles := [] }
    persistHistory := []
    oracle := []
    log := [] }

/-- The invariant relating the in-memory snapshot to the persisted one: their
versions agree whenever both exist.  `reload` establishes it and `update`
preserves it. -/
def versionInv (s : Sys) : Prop :=
  ∀ cv pc, s.current_values = some cv → s.persistCurrent = some pc →
    cv.version = pc.version

/-! # Theorems -/

/-! ## Record-level lemmas -/

theorem Feattle.update_ok_of_parse (f : Feattle) (e : CurrentValue) (tv : interp f.ty)
    (h : tryFromJson f.ty e.value = .ok tv) :
    f.update (some e) = ({ f with current_value := some e, value := tv }, .ok f.current_value) := by
  simp [Feattle.update, h]

theorem Feattle.update_error_of_parse (f : Feattle) (e : CurrentValue) (err : FromJsonError)
    (h : tryFromJson f.ty e.value = .error err) :
    f.update (some e) = ({ f with current_value := some e }, .error err) := by
  simp [Feattle.update, h]

theorem Feattle.update_key (f : Feattle) (v : Option CurrentValue) :
    (f.update v).1.key = f.key := by
  cases v with
  | none => rfl
  | some cv =>
    simp only [Feattle.update]
    cases tryFromJson f.ty cv.value <;> rfl

/-- Undoing a `Feattle::update` by re-updating with the old entry restores the
record exactly, provided the record satisfied the consistency invariant. -/
theorem Feattle.update_rollback (f : Feattle) (v : Option CurrentValue)
    (hc : recordConsistent f) :
    ((f.update v).1.update f.current_value).1 = f := by
  obtain ⟨k, d, ty, val, dflt, cv⟩ := f
  rcases cv with _ | e
  · have hd : val = dflt := hc
    subst hd
    cases v with
    | none => rfl
    | some cv2 =>
      simp only [Feattle.update]
      rcases h : tryFromJson ty cv2.value with e2 | tv <;> simp [Feattle.update]
  · have hp : tryFromJson ty e.value = .ok val := hc
    cases v with
    | none => simp [Feattle.update, hp]
    | some cv2 =>
      simp only [Feattle.update]
      rcases h : tryFromJson ty cv2.value with e2 | tv <;> simp [Feattle.update, hp]

/-! ## `structUpdate` lemmas -/

theorem structUpdate_not_found (fs : List Feattle) (key : String) (v : Option CurrentValue)
    (h : key ∉ fs.map (·.key)) : structUpdate fs key v = (fs, .ok none) := by
  induction fs with
  | nil => rfl
  | cons f rest ih =>
    simp only [List.map_cons, List.mem_cons, not_or] at h
    rw [structUpdate, if_neg (Ne.symm h.1)]
    simp [ih h.2]

theorem structUpdate_keys (fs : List Feattle) (key : String) (v : Option CurrentValue) :
    (structUpdate fs key v).1.map (·.key) = fs.map (·.key) := by
  induction fs with
  | nil => rfl
  | cons f rest ih =>
    by_cases h : f.key = key
    · simp [structUpdate, h, Feattle.update_key]
    · simp [structUpdate, h, ih]

theorem structUpdate_cons_ne (f : Feattle) (rest : List Feattle) (key : String)
    (v : Option CurrentValue) (h : f.key ≠ key) :
    structUpdate (f :: rest) key v =
      ((f :: (structUpdate rest key v).1), (structUpdate rest key v).2) := by
  simp [structUpdate, h]

theorem structUpdate_cons_eq (f : Feattle) (rest : List Feattle) (key : String)
    (v : Option CurrentValue) (h : f.key = key) :
    structUpdate (f :: rest) key v = ((f.update v).1 :: rest, (f.update v).2) := by
  simp [structUpdate, h]

/-- The rollback of `Feattles::update` restores the whole record list, provided
the records routed to by the key satisfied the consistency invariant. -/
theorem structUpdate_rollback (fs : List Feattle) (key : String) (v : Option CurrentValue)
    (old : Option CurrentValue)
    (hc : ∀ f ∈ fs, f.key = key → recordConsistent f)
    (hold : (structUpdate fs key v).2 = .ok old) :
    (structUpdate (structUpdate fs key v).1 key old).1 = fs := by
  induction fs with
  | nil => rfl
  | cons f rest ih =>
    by_cases h : f.key = key
    · rw [structUpdate_cons_eq f rest key v h] at hold ⊢
      simp only at hold ⊢
      have hk' : (f.update v).1.key = key := by rw [Feattle.update_key]; exact h
      rw [structUpdate_cons_eq _ rest key old hk']
      simp only [List.cons.injEq, and_true]
      have hov : old = f.current_value := by
        cases v with
        | none => simpa [Feattle.update] using hold.symm
        | some cv =>
          simp only [Feattle.update] at hold
          rcases hp : tryFromJson f.ty cv.value with e | tv <;> rw [hp] at hold
          · cases hold
          · simpa using hold.symm
      rw [hov]
      exact Feattle.update_rollback f v (hc f (by simp) h)
    · rw [structUpdate_cons_ne f rest key v h] at hold ⊢
      simp only at hold ⊢
      rw [structUpdate_cons_ne f _ key old h]
      simp only [List.cons.injEq, true_and]
      exact ih (fun g hg hk => hc g (by simp [hg]) hk) hold

/-! ## C7: unknown keys are rejected untouched -/

/-- C7: for a key outside the declared key set, `update` and `history` fail
with `UnknownKey` and leave the whole system state — in particular the
persistence backend, the port-call log and the error oracle — untouched: the
persistence port is never invoked. -/
theorem unknown_key_rejection (s : Sys) (key : String) (value : Value) (who : String)
    (now : Int) (h : key ∉ s.keys) :
    updateOp s key value who now = (s, .error (.unknownKey key))
    ∧ historyOp s key = (s, .error (.unknownKey key)) := by
  constructor
  · simp [updateOp, h]
  · simp [historyOp, h]

theorem unknown_key_rejection_witness :
    "does-not-exist" ∉ (Sys.new [Feattle.new "a" "" FTy.bool false] []).keys
    ∧ updateOp (Sys.new [Feattle.new "a" "" FTy.bool false] []) "does-not-exist"
        Value.null "who" 0
      = (Sys.new [Feattle.new "a" "" FTy.bool false] [],
          .error (.unknownKey "does-not-exist"))
    ∧ historyOp (Sys.new [Feattle.new "a" "" FTy.bool false] []) "does-not-exist"
      = (Sys.new [Feattle.new "a" "" FTy.bool false] [],
          .error (.unknownKey "does-not-exist")) := by
  have h : "does-not-exist" ∉ (Sys.new [Feattle.new "a" "" FTy.bool false] []).keys := by
    simp [Sys.new, Sys.keys, Feattle.new]
  have := unknown_key_rejection (Sys.new [Feattle.new "a" "" FTy.bool false] [])
    "does-not-exist" Value.null "who" 0 h
  exact ⟨h, this.1, this.2⟩

/-! ## C6: a failed `load_current` leaves `reload` without effect -/

/-- C6: when the port's `load_current` fails, `reload` propagates that exact
error and mutates nothing: `last_reload`, the stored current-values snapshot,
every flag record, and the persisted state are all exactly as before. -/
theorem reload_port_failure_frame (s : Sys) (now : Int) (e : PError)
    (rest : List (Option PError)) (h : s.oracle = some e :: rest) :
    (reloadOp s now).2 = .error e
    ∧ (reloadOp s now).1.last_reload = s.last_reload
    ∧ (reloadOp s now).1.current_values = s.current_values
    ∧ (reloadOp s now).1.feattles_struct = s.feattles_struct
    ∧ (reloadOp s now).1.persistCurrent = s.persistCurrent
    ∧ (reloadOp s now).1.persistHistory = s.persistHistory := by
  simp [reloadOp, doLoadCurrent, takeOracle, h]

theorem reload_port_failure_frame_witness :
    ({ c1GoodSys with oracle := [some 5] } : Sys).oracle = some 5 :: []
    ∧ (reloadOp { c1GoodSys with oracle := [some 5] } 42).2 = .error 5
    ∧ (reloadOp { c1GoodSys with oracle := [some 5] } 42).1.last_reload
      = ({ c1GoodSys with oracle := [some 5] } : Sys).last_reload
    ∧ (reloadOp { c1GoodSys with oracle := [some 5] } 42).1.current_values
      = ({ c1GoodSys with oracle := [some 5] } : Sys).current_values
    ∧ (reloadOp { c1GoodSys with oracle := [some 5] } 42).1.feattles_struct
      = ({ c1GoodSys with oracle := [some 5] } : Sys).feattles_struct := by
  have h := reload_port_failure_frame { c1GoodSys with oracle := [some 5] } 42 5 [] rfl
  exact ⟨rfl, h.1, h.2.1, h.2.2.1, h.2.2.2.1⟩

/-! ## C2: `try_update` on a bad stored entry -/

/-- C2 counterexample: a record-level `try_update` whose entry fails to parse
does *not* leave the record entirely unchanged — it returns the parse error
with the typed value untouched, but the stored provenance entry has already
been `mem::replace`d by the new (unparseable) entry. -/
theorem try_update_parse_failure_counterexample :
    ((Feattle.new "a" "" (FTy.int .i32) 0).update
        (some { modified_at := 7, modified_by := "eve", value := Value.str "bad" })).2
      = .error (.wrongKind "Number::i64" "String")
    ∧ ((Feattle.new "a" "" (FTy.int .i32) 0).update
        (some { modified_at := 7, modified_by := "eve", value := Value.str "bad" })).1.current_value
      = some { modified_at := 7, modified_by := "eve", value := Value.str "bad" }
    ∧ (Feattle.new "a" "" (FTy.int .i32) 0).current_value = none
    ∧ (some { modified_at := 7, modified_by := "eve", value := Value.str "bad" }
        : Option CurrentValue) ≠ none := by
  exact ⟨rfl, rfl, rfl, by simp⟩

/-- C2 amended: on a stored entry whose JSON value fails to parse for the
record's type, `try_update` returns the parse error and leaves the current
*typed* value unchanged, but its provenance (the stored entry) is replaced by
the new entry. -/
theorem try_update_parse_failure_amended (f : Feattle) (e : CurrentValue)
    (err : FromJsonError) (h : tryFromJson f.ty e.value = .error err) :
    f.update (some e) = ({ f with current_value := some e }, .error err) := by
  simp [Feattle.update, h]

theorem try_update_parse_failure_amended_witness :
    tryFromJson (Feattle.new "a" "" FTy.bool false).ty (Value.num (.posInt 1))
      = .error (.wrongKind "Bool" "Number")
    ∧ (Feattle.new "a" "" FTy.bool false).update
        (some { modified_at := 1, modified_by := "w", value := Value.num (.posInt 1) })
      = ({ Feattle.new "a" "" FTy.bool false with
            current_value := some { modified_at := 1, modified_by := "w",
                                    value := Value.num (.posInt 1) } },
          .error (.wrongKind "Bool" "Number")) :=
  ⟨rfl, try_update_parse_failure_amended (Feattle.new "a" "" FTy.bool false)
    { modified_at := 1, modified_by := "w", value := Value.num (.posInt 1) }
    (.wrongKind "Bool" "Number") rfl⟩

/-! ## C1: rollback when `save_current` fails -/

/-- Behavior of steps 2-3 of `update` when `load_history` and `save_history`
succeed but `save_current` fails: step 1 is rolled back, the in-memory
snapshot and the persisted snapshot are untouched, and the port error is
returned wrapped in `Persistence`. -/
theorem updateStep2_saveCurrent_fail (s : Sys) (key : String) (nv : CurrentValue)
    (nvs : CurrentValues) (old : Option CurrentValue) (e : PError)
    (rest : List (Option PError)) (h : s.oracle = none :: none :: some e :: rest) :
    (updateStep2 s key nv nvs old).2 = .error (.persistence e)
    ∧ (updateStep2 s key nv nvs old).1.feattles_struct
      = (structUpdate s.feattles_struct key old).1
    ∧ (updateStep2 s key nv nvs old).1.current_values = s.current_values
    ∧ (updateStep2 s key nv nvs old).1.persistCurrent = s.persistCurrent := by
  rcases rest with _ | ⟨o4, rest'⟩
  · simp [updateStep2, updateStep3, doLoadHistory, doSaveHistory, doSaveCurrent,
      takeOracle, rollbackStep1, h]
  · rcases o4 with _ | e4 <;>
      simp [updateStep2, updateStep3, doLoadHistory, doSaveHistory, doSaveCurrent,
        takeOracle, rollbackStep1, h]

/-- C1, amended: if the port's `save_current` call fails during
`update(k, v, who)` — the oracle lets `load_history` and `save_history`
succeed and fails the third call — then `update` returns the `Persistence`
variant wrapping that exact port error, the registry's stored current-values
snapshot (in memory and persisted, hence also its version) is unchanged, and
the whole record list — in particular flag `k`'s in-memory value — is exactly
as before the call, **provided** the records declared for `k` satisfy the
record-consistency invariant (their stored entry, when present, re-parses to
the current value).  Without that proviso the best-effort rollback is
abandoned and the new value stands (see the counterexample). -/
theorem update_save_current_failure_rollback (s : Sys) (key : String) (value : Value)
    (who : String) (now : Int) (e : PError) (rest : List (Option PError))
    (cur : CurrentValues) (fs1 : List Feattle) (old : Option CurrentValue)
    (hkey : key ∈ s.keys)
    (hcur : s.current_values = some cur)
    (horacle : s.oracle = none :: none :: some e :: rest)
    (hstep1 : structUpdate s.feattles_struct key
        (some { modified_at := now, modified_by := who, value := value }) = (fs1, .ok old))
    (hcons : ∀ f ∈ s.feattles_struct, f.key = key → recordConsistent f) :
    (updateOp s key value who now).2 = .error (.persistence e)
    ∧ (updateOp s key value who now).1.feattles_struct = s.feattles_struct
    ∧ (updateOp s key value who now).1.current_values = s.current_values
    ∧ (updateOp s key value who now).1.persistCurrent = s.persistCurrent := by
  have hred : updateOp s key value who now
      = updateStep2 { s with feattles_struct := fs1 } key
          { modified_at := now, modified_by := who, value := value }
          { version := wrap32 (cur.version + 1), date := cur.date
            feattles := cvInsert cur.feattles key
              { modified_at := now, modified_by := who, value := value } } old := by
    simp only [updateOp, if_pos hkey, hcur, hstep1]
  have h2 := updateStep2_saveCurrent_fail { s with feattles_struct := fs1 } key
    { modified_at := now, modified_by := who, value := value }
    { version := wrap32 (cur.version + 1), date := cur.date
      feattles := cvInsert cur.feattles key
        { modified_at := now, modified_by := who, value := value } } old e rest horacle
  have hroll : (structUpdate fs1 key old).1 = s.feattles_struct := by
    have := structUpdate_rollback s.feattles_struct key
      (some { modified_at := now, modified_by := who, value := value }) old hcons
      (by rw [hstep1])
    rwa [hstep1] at this
  refine ⟨?_, ?_, ?_, ?_⟩
  · rw [hred]; exact h2.1
  · rw [hred]; rw [h2.2.1]; exact hroll
  · rw [hred, h2.2.2.1]
  · rw [hred]; exact h2.2.2.2

theorem update_save_current_failure_rollback_witness :
    (updateOp c1GoodSys "a" (Value.num (.posInt 5)) "alice" 10).2
      = .error (.persistence 7)
    ∧ (updateOp c1GoodSys "a" (Value.num (.posInt 5)) "alice" 10).1.feattles_struct
      = c1GoodSys.feattles_struct
    ∧ (updateOp c1GoodSys "a" (Value.num (.posInt 5)) "alice" 10).1.current_values
      = c1GoodSys.current_values
    ∧ (updateOp c1GoodSys "a" (Value.num (.posInt 5)) "alice" 10).1.persistCurrent
      = c1GoodSys.persistCurrent := by
  have h := update_save_current_failure_rollback c1GoodSys "a" (Value.num (.posInt 5))
    "alice" 10 7 [] { version := 0, date := 0, feattles := [] }
    [{ Feattle.new "a" "" (FTy.int .i32) 0 with
        current_value := some { modified_at := 10, modified_by := "alice",
                                value := Value.num (.posInt 5) }
        value := (5 : Int) }] none
    (by simp [c1GoodSys, Sys.keys, Feattle.new]) rfl rfl rfl
    (by
      intro f hf _
      simp only [c1GoodSys, List.mem_singleton] at hf
      subst hf
      rfl)
  exact h

/-- C1 counterexample: the unconditional claim fails when the flag's prior
stored entry does not re-parse (a state reachable through `reload` against a
snapshot with a corrupt entry for `k`).  On `c1BadSys` the `save_current`
failure does return `Persistence`, but the best-effort rollback re-parses the
bad old entry, fails, and is abandoned: the in-memory value of `a` after the
call is the new value `5`, not the pre-call value `0`. -/
theorem update_save_current_failure_rollback_counterexample :
    (updateOp c1BadSys "a" (Value.num (.posInt 5)) "alice" 10).2
      = .error (.persistence 3)
    ∧ ((updateOp c1BadSys "a" (Value.num (.posInt 5)) "alice" 10).1.feattles_struct.head?.map
        (fun f => asJson f.ty f.value)) = some (Value.num (.posInt 5))
    ∧ (c1BadSys.feattles_struct.head?.map (fun f => asJson f.ty f.value))
      = some (Value.num (.posInt 0))
    ∧ some (Value.num (.posInt 5)) ≠ some (Value.num (.posInt 0)) := by
  refine ⟨rfl, rfl, rfl, by simp⟩

/-! ## Frame and inversion lemmas for the port operations -/

theorem doLoadHistory_fst (s : Sys) (key : String) :
    (doLoadHistory s key).1
      = { s with oracle := (takeOracle s.oracle).2, log := s.log ++ [.loadHistory key] } := by
  rcases h : (takeOracle s.oracle).1 with _ | e <;> simp [doLoadHistory, h]

theorem doSaveHistory_frame (s : Sys) (key : String) (hs : List HistoryEntry) :
    (doSaveHistory s key hs).1.feattles_struct = s.feattles_struct
    ∧ (doSaveHistory s key hs).1.current_values = s.current_values
    ∧ (doSaveHistory s key hs).1.persistCurrent = s.persistCurrent
    ∧ (doSaveHistory s key hs).1.last_reload = s.last_reload := by
  rcases h : (takeOracle s.oracle).1 with _ | e <;> simp [doSaveHistory, h]

theorem doSaveCurrent_ok (s : Sys) (cv : CurrentValues) (s1 : Sys)
    (h : doSaveCurrent s cv = (s1, none)) :
    s1.persistCurrent = some cv
    ∧ s1.feattles_struct = s.feattles_struct
    ∧ s1.current_values = s.current_values := by
  rcases ho : (takeOracle s.oracle).1 with _ | e <;> simp [doSaveCurrent, ho] at h
  rw [← h]
  exact ⟨rfl, rfl, rfl⟩

theorem doSaveCurrent_err (s : Sys) (cv : CurrentValues) (s1 : Sys) (e : PError)
    (h : doSaveCurrent s cv = (s1, some e)) :
    s1.persistCurrent = s.persistCurrent
    ∧ s1.feattles_struct = s.feattles_struct
    ∧ s1.current_values = s.current_values := by
  rcases ho : (takeOracle s.oracle).1 with _ | e' <;> simp [doSaveCurrent, ho] at h
  rw [← h.1]
  exact ⟨rfl, rfl, rfl⟩

theorem doSaveHistory_ok_frame (s : Sys) (key : String) (hs : List HistoryEntry) (s1 : Sys)
    (h : (doSaveHistory s key hs).1 = s1) :
    s1.feattles_struct = s.feattles_struct
    ∧ s1.current_values = s.current_values
    ∧ s1.persistCurrent = s.persistCurrent := by
  have := doSaveHistory_frame s key hs
  rw [h] at this
  exact ⟨this.1, this.2.1, this.2.2.1⟩

/-- Inversion of a successful steps-2-to-4 run: all three port calls went
through, so the new snapshot is both committed in memory and persisted, and
the record list is whatever step 1 left. -/
theorem updateStep2_ok_inv (s : Sys) (key : String) (nv : CurrentValue)
    (nvs : CurrentValues) (old : Option CurrentValue) (s1 : Sys)
    (h : updateStep2 s key nv nvs old = (s1, .ok ())) :
    s1.feattles_struct = s.feattles_struct
    ∧ s1.current_values = some nvs
    ∧ s1.persistCurrent = some nvs := by
  rw [updateStep2] at h
  split at h
  · simp at h
  · rename_i sA oldOpt hload
    unfold updateStep3 at h
    dsimp only at h
    split at h
    · simp at h
    · rename_i sB hsave
      split at h
      · simp at h
      · rename_i sC hcur
        have hA : sA.feattles_struct = s.feattles_struct
            ∧ sA.current_values = s.current_values
            ∧ sA.persistCurrent = s.persistCurrent := by
          have hfst : (doLoadHistory s key).1 = sA := by rw [hload]
          rw [doLoadHistory_fst] at hfst
          rw [← hfst]
          exact ⟨rfl, rfl, rfl⟩
        have hB : sB.feattles_struct = sA.feattles_struct
            ∧ sB.current_values = sA.current_values
            ∧ sB.persistCurrent = sA.persistCurrent :=
          doSaveHistory_ok_frame sA key _ sB (by rw [hsave])
        have hC := doSaveCurrent_ok sB nvs sC hcur
        have hs1 : s1 = { sC with current_values := some nvs } := by
          simp only [Prod.mk.injEq] at h
          exact h.1.symm
        rw [hs1]
        refine ⟨?_, rfl, ?_⟩
        · simpa [hC.2.1, hB.1] using hA.1
        · simpa using hC.1

/-- Inversion of a successful `update()`: the key is declared, a snapshot
existed, step 1 succeeded, and the incremented snapshot is committed both in
memory and in the persistence backend. -/
theorem updateOp_ok_inv (s : Sys) (key : String) (value : Value) (who : String)
    (now : Int) (s1 : Sys)
    (h : updateOp s key value who now = (s1, .ok ())) :
    key ∈ s.keys
    ∧ ∃ cur fs1 old,
      s.current_values = some cur
      ∧ structUpdate s.feattles_struct key
          (some { modified_at := now, modified_by := who, value := value }) = (fs1, .ok old)
      ∧ s1.feattles_struct = fs1
      ∧ s1.current_values = some
          { version := wrap32 (cur.version + 1), date := cur.date
            feattles := cvInsert cur.feattles key
              { modified_at := now, modified_by := who, value := value } }
      ∧ s1.persistCurrent = some
          { version := wrap32 (cur.version + 1), date := cur.date
            feattles := cvInsert cur.feattles key
              { modified_at := now, modified_by := who, value := value } } := by
  rw [updateOp] at h
  split at h
  · rename_i hkey
    refine ⟨hkey, ?_⟩
    split at h
    · simp at h
    · rename_i cur hcur
      dsimp only at h
      split at h
      · simp at h
      · rename_i fs1 old hsu
        have h2 := updateStep2_ok_inv _ _ _ _ _ _ h
        exact ⟨cur, fs1, old, hcur, hsu, by simpa using h2.1, h2.2.1, h2.2.2⟩
  · simp at h

/-! ## `findRecord`, `cvGet` and `reloadKeys` lemmas -/

theorem cvGet_cvInsert_self (m : List (String × CurrentValue)) (k : String)
    (v : CurrentValue) : cvGet (cvInsert m k v) k = some v := by
  induction m with
  | nil => simp [cvInsert, cvGet]
  | cons p rest ih =>
    by_cases h : p.1 = k
    · simp [cvInsert, cvGet, h]
    · simp only [cvInsert, cvGet]
      rw [if_neg h, cvGet, if_neg h]
      exact ih

theorem findRecord_isSome (fs : List Feattle) (key : String)
    (h : key ∈ fs.map (·.key)) : (findRecord fs key).isSome := by
  induction fs with
  | nil => simp at h
  | cons f rest ih =>
    by_cases hf : f.key = key
    · simp [findRecord, hf]
    · simp only [List.map_cons, List.mem_cons] at h
      rcases h with h | h
      · exact absurd h.symm hf
      · simp only [findRecord, if_neg hf]
        exact ih h

theorem findRecord_map (g : Feattle → Feattle) (hg : ∀ f, (g f).key = f.key)
    (fs : List Feattle) (key : String) :
    findRecord (fs.map g) key = (findRecord fs key).map g := by
  induction fs with
  | nil => rfl
  | cons f rest ih =>
    by_cases hf : f.key = key
    · simp [findRecord, hg, hf]
    · simp only [List.map_cons, findRecord, hg, if_neg hf]
      exact ih

theorem findRecord_structUpdate (fs : List Feattle) (key : String)
    (v : Option CurrentValue) :
    findRecord (structUpdate fs key v).1 key
      = (findRecord fs key).map (fun f => (f.update v).1) := by
  induction fs with
  | nil => rfl
  | cons f rest ih =>
    by_cases hf : f.key = key
    · rw [structUpdate_cons_eq f rest key v hf]
      simp [findRecord, hf, Feattle.update_key, hf]
    · rw [structUpdate_cons_ne f rest key v hf]
      simp only [findRecord, if_neg hf]
      exact ih

theorem structUpdate_result (fs : List Feattle) (key : String) (v : Option CurrentValue)
    (r : Feattle) (h : findRecord fs key = some r) :
    (structUpdate fs key v).2 = (r.update v).2 := by
  induction fs with
  | nil => simp [findRecord] at h
  | cons f rest ih =>
    by_cases hf : f.key = key
    · simp only [findRecord, if_pos hf] at h
      rw [structUpdate_cons_eq f rest key v hf]
      rw [Option.some.injEq] at h
      rw [h]
    · simp only [findRecord, if_neg hf] at h
      rw [structUpdate_cons_ne f rest key v hf]
      exact ih h

theorem reloadKeys_cons_notin (ks : List String) (entries : List (String × CurrentValue))
    (g : Feattle) :
    ∀ fs : List Feattle, g.key ∉ ks →
      reloadKeys ks entries (g :: fs) = g :: reloadKeys ks entries fs := by
  induction ks with
  | nil => intro fs _; rfl
  | cons k rest ih =>
    intro fs h
    simp only [List.mem_cons, not_or] at h
    rw [reloadKeys, structUpdate_cons_ne g fs k _ h.1, reloadKeys]
    exact ih _ h.2

/-- With distinct declared keys, `reload`'s per-key loop acts on each record
independently: the final record list is the pointwise `try_update` of each
record with its own entry of the snapshot. -/
theorem reloadKeys_pointwise (fs : List Feattle) (entries : List (String × CurrentValue))
    (hnodup : (fs.map (·.key)).Nodup) :
    reloadKeys (fs.map (·.key)) entries fs
      = fs.map (fun f => (f.update (cvGet entries f.key)).1) := by
  induction fs with
  | nil => rfl
  | cons f rest ih =>
    simp only [List.map_cons, List.nodup_cons] at hnodup
    rw [List.map_cons, reloadKeys, structUpdate_cons_eq f rest f.key _ rfl]
    have hkey : (f.update (cvGet entries f.key)).1.key ∉ rest.map (·.key) := by
      rw [Feattle.update_key]
      exact hnodup.1
    rw [reloadKeys_cons_notin _ _ _ _ hkey]
    rw [List.map_cons]
    exact congrArg _ (ih hnodup.2)

theorem findRecord_key (fs : List Feattle) (key : String) (r : Feattle)
    (h : findRecord fs key = some r) : r.key = key := by
  induction fs with
  | nil => simp [findRecord] at h
  | cons f rest ih =>
    by_cases hf : f.key = key
    · simp only [findRecord, if_pos hf, Option.some.injEq] at h
      rw [← h]; exact hf
    · simp only [findRecord, if_neg hf] at h
      exact ih h

/-- Inversion of a successful record-level `try_update` with a fresh entry:
the entry parsed, the record now carries it together with the parsed value,
and the previous entry was returned. -/
theorem Feattle.update_some_ok_inv (f : Feattle) (e : CurrentValue)
    (old : Option CurrentValue) (h : (f.update (some e)).2 = .ok old) :
    ∃ tv, tryFromJson f.ty e.value = .ok tv
      ∧ (f.update (some e)).1 = { f with current_value := some e, value := tv }
      ∧ old = f.current_value := by
  rcases hp : tryFromJson f.ty e.value with perr | tv
  · simp [Feattle.update, hp] at h
  · refine ⟨tv, rfl, ?_, ?_⟩
    · simp [Feattle.update, hp]
    · simp [Feattle.update, hp] at h
      exact h.symm

theorem doLoadCurrent_ok_inv (s : Sys) (sA : Sys) (v : Option CurrentValues)
    (h : doLoadCurrent s = (sA, .ok v)) :
    v = s.persistCurrent
    ∧ sA.feattles_struct = s.feattles_struct
    ∧ sA.current_values = s.current_values
    ∧ sA.persistCurrent = s.persistCurrent
    ∧ sA.persistHistory = s.persistHistory := by
  rcases ho : (takeOracle s.oracle).1 with _ | e <;> simp [doLoadCurrent, ho] at h
  rcases h with ⟨h1, h2⟩
  rw [← h1, ← h2]
  exact ⟨rfl, rfl, rfl, rfl, rfl⟩

/-- Inversion of a successful `reload` against a backend holding a snapshot:
the snapshot is stored verbatim as the in-memory current values and every
declared key is `try_update`d through the per-key loop. -/
theorem reloadOp_ok_some (s : Sys) (now : Int) (s2 : Sys) (cv : CurrentValues)
    (hpc : s.persistCurrent = some cv) (h : reloadOp s now = (s2, .ok ())) :
    s2.current_values = some cv
    ∧ s2.feattles_struct = reloadKeys s.keys cv.feattles s.feattles_struct
    ∧ s2.persistCurrent = some cv
    ∧ s2.last_reload = .data now cv.version cv.date := by
  rw [reloadOp] at h
  split at h
  · simp at h
  · rename_i sA hload
    have hi := doLoadCurrent_ok_inv s sA none hload
    rw [hpc] at hi
    exact absurd hi.1 (by simp)
  · rename_i sA cv' hload
    have hi := doLoadCurrent_ok_inv s sA (some cv') hload
    rw [hpc] at hi
    have hcv : cv' = cv := by
      have := hi.1
      simpa using this
    subst hcv
    simp only [Prod.mk.injEq] at h
    rw [← h.1]
    refine ⟨rfl, ?_, ?_, rfl⟩
    · simp only [Sys.keys]
      rw [hi.2.1]
    · simpa using hi.2.2.2.1

/-! ## C5: per-key parse failures during reload are skipped -/

/-- C5: during `reload()` with a loaded snapshot, a declared key whose stored
entry fails to parse is skipped — its typed in-memory value is untouched —
while the reload still returns success, every record is still `try_update`d
independently from its own entry of the snapshot, and the full snapshot is
still stored as the registry's current values. -/
theorem reload_per_key_parse_failure (s : Sys) (now : Int) (cv : CurrentValues)
    (rest : List (Option PError)) (k : String) (r : Feattle) (e : CurrentValue)
    (err : FromJsonError)
    (hnodup : s.keys.Nodup)
    (horacle : s.oracle = none :: rest)
    (hpc : s.persistCurrent = some cv)
    (hr : findRecord s.feattles_struct k = some r)
    (hentry : cvGet cv.feattles k = some e)
    (hfail : tryFromJson r.ty e.value = .error err) :
    (reloadOp s now).2 = .ok ()
    ∧ (reloadOp s now).1.current_values = some cv
    ∧ (reloadOp s now).1.feattles_struct
      = s.feattles_struct.map (fun f => (f.update (cvGet cv.feattles f.key)).1)
    ∧ findRecord (reloadOp s now).1.feattles_struct k
      = some { r with current_value := some e } := by
  have hpoint : reloadKeys s.keys cv.feattles s.feattles_struct
      = s.feattles_struct.map (fun f => (f.update (cvGet cv.feattles f.key)).1) :=
    reloadKeys_pointwise s.feattles_struct cv.feattles hnodup
  have h1 : (reloadOp s now).2 = .ok ()
      ∧ (reloadOp s now).1.current_values = some cv
      ∧ (reloadOp s now).1.feattles_struct
        = reloadKeys s.keys cv.feattles s.feattles_struct := by
    simp [reloadOp, doLoadCurrent, takeOracle, horacle, hpc, Sys.keys]
  refine ⟨h1.1, h1.2.1, ?_, ?_⟩
  · rw [h1.2.2, hpoint]
  · rw [h1.2.2, hpoint]
    rw [findRecord_map _ (fun f => Feattle.update_key f _) s.feattles_struct k, hr]
    have hkr : r.key = k := findRecord_key _ _ _ hr
    simp only [Option.map_some']
    rw [hkr, hentry, Feattle.update_error_of_parse r e err hfail]
    simp [hkr]

theorem reload_per_key_parse_failure_witness :
    (reloadOp c5Sys 5).2 = .ok ()
    ∧ (reloadOp c5Sys 5).1.current_values = some c5Snapshot
    ∧ (reloadOp c5Sys 5).1.feattles_struct
      = c5Sys.feattles_struct.map (fun f => (f.update (cvGet c5Snapshot.feattles f.key)).1)
    ∧ findRecord (reloadOp c5Sys 5).1.feattles_struct "a"
      = some { Feattle.new "a" "" (FTy.int .i32) 0 with current_value := some badEntry } :=
  reload_per_key_parse_failure c5Sys 5 c5Snapshot [] "a"
    (Feattle.new "a" "" (FTy.int .i32) 0) badEntry (.wrongKind "Number::i64" "String")
    (by simp [c5Sys, Sys.keys, Feattle.new]) rfl rfl rfl rfl rfl

/-! ## C4: update-then-reload convergence -/

/-- C4: after `update(k, v, who)` succeeds at time `nowU`, a subsequent
successful `reload()` against the same (now-persisted) storage leaves flag
`k`'s record exactly as the update left it: its provenance entry is
`{modified_at := nowU, modified_by := who, value := v}` and its typed
in-memory value is the parse of `v` (the record is the same before and after
the reload). -/
theorem update_then_reload_convergence (s : Sys) (key : String) (value : Value)
    (who : String) (nowU nowR : Int) (s1 s2 : Sys)
    (hnodup : s.keys.Nodup)
    (hupd : updateOp s key value who nowU = (s1, .ok ()))
    (hrel : reloadOp s1 nowR = (s2, .ok ())) :
    ∃ r2, findRecord s2.feattles_struct key = some r2
      ∧ r2.current_value
        = some { modified_at := nowU, modified_by := who, value := value }
      ∧ tryFromJson r2.ty value = .ok r2.value
      ∧ findRecord s1.feattles_struct key = some r2 := by
  obtain ⟨hkey, cur, fs1, old, hcur, hsu, hfs1, hcv1, hpc1⟩ := updateOp_ok_inv _ _ _ _ _ _ hupd
  -- the declared record for `key` and the success of step 1 through it
  obtain ⟨r, hr⟩ := Option.isSome_iff_exists.1 (findRecord_isSome s.feattles_struct key hkey)
  have hres : (structUpdate s.feattles_struct key
      (some { modified_at := nowU, modified_by := who, value := value })).2
      = (r.update (some { modified_at := nowU, modified_by := who, value := value })).2 :=
    structUpdate_result _ _ _ _ hr
  rw [hsu] at hres
  obtain ⟨tv, hparse, hrec1, -⟩ := Feattle.update_some_ok_inv r _ old hres.symm
  -- the record after step 1
  have hfr1 : findRecord fs1 key
      = some { r with
          current_value := some { modified_at := nowU, modified_by := who, value := value }
          value := tv } := by
    have := findRecord_structUpdate s.feattles_struct key
      (some { modified_at := nowU, modified_by := who, value := value })
    rw [hsu] at this
    simp only at this
    rw [this, hr, Option.map_some', hrec1]
  -- invert the reload
  have hrl := reloadOp_ok_some s1 nowR s2 _ hpc1 hrel
  have hkeys1 : s1.keys = s.keys := by
    simp only [Sys.keys, hfs1]
    have := structUpdate_keys s.feattles_struct key
      (some { modified_at := nowU, modified_by := who, value := value })
    rw [hsu] at this
    exact this
  have hpoint : s2.feattles_struct
      = fs1.map (fun f => (f.update (cvGet (cvInsert cur.feattles key
          { modified_at := nowU, modified_by := who, value := value }) f.key)).1) := by
    rw [hrl.2.1, hkeys1, hfs1]
    have hnodup1 : (fs1.map (·.key)).Nodup := by
      have := structUpdate_keys s.feattles_struct key
        (some { modified_at := nowU, modified_by := who, value := value })
      rw [hsu] at this
      simp only at this
      rw [this]
      exact hnodup
    have hkeq : s.keys = fs1.map (·.key) := by
      have := structUpdate_keys s.feattles_struct key
        (some { modified_at := nowU, modified_by := who, value := value })
      rw [hsu] at this
      simp only at this
      rw [this]
      rfl
    rw [hkeq]
    exact reloadKeys_pointwise fs1 _ hnodup1
  -- locate record `key` after the reload
  have hfr1' : findRecord s1.feattles_struct key
      = some { r with
          current_value := some { modified_at := nowU, modified_by := who, value := value }
          value := tv } := by
    rw [hfs1]; exact hfr1
  refine ⟨{ r with
      current_value := some { modified_at := nowU, modified_by := who, value := value }
      value := tv }, ?_, rfl, ?_, hfr1'⟩
  · rw [hpoint]
    rw [findRecord_map _ (fun f => Feattle.update_key f _) fs1 key, hfr1]
    simp only [Option.map_some', Option.some.injEq]
    have hkr : r.key = key := findRecord_key _ _ _ hr
    rw [show ({ r with
        current_value := some { modified_at := nowU, modified_by := who, value := value }
        value := tv } : Feattle).key = key from hkr, cvGet_cvInsert_self]
    exact congrArg Prod.fst (Feattle.update_ok_of_parse
      { key := key, description := r.description, ty := r.ty, value := tv
        default := r.default
        current_value := some { modified_at := nowU, modified_by := who, value := value } }
      { modified_at := nowU, modified_by := who, value := value } tv hparse)
  · exact hparse

theorem update_then_reload_convergence_witness :
    ∃ r2, findRecord (reloadOp (updateOp { c1GoodSys with oracle := [] } "a"
        (Value.num (.posInt 27)) "alice" 2).1 3).1.feattles_struct "a" = some r2
      ∧ r2.current_value
        = some { modified_at := 2, modified_by := "alice", value := Value.num (.posInt 27) }
      ∧ tryFromJson r2.ty (Value.num (.posInt 27)) = .ok r2.value
      ∧ findRecord (updateOp { c1GoodSys with oracle := [] } "a"
          (Value.num (.posInt 27)) "alice" 2).1.feattles_struct "a" = some r2 :=
  update_then_reload_convergence { c1GoodSys with oracle := [] } "a"
    (Value.num (.posInt 27)) "alice" 2 3 _ _
    (by simp [c1GoodSys, Sys.keys, Feattle.new]) rfl rfl

/-! ## C3: version monotonicity -/

theorem rollbackStep1_frame (s : Sys) (key : String) (old : Option CurrentValue) :
    (rollbackStep1 s key old).current_values = s.current_values
    ∧ (rollbackStep1 s key old).persistCurrent = s.persistCurrent := by
  exact ⟨rfl, rfl⟩

/-- Every failure path of steps 2-4 leaves both the in-memory and the
persisted snapshot untouched (only the record list and the persisted history
may have been moved). -/
theorem updateStep2_err_inv (s : Sys) (key : String) (nv : CurrentValue)
    (nvs : CurrentValues) (old : Option CurrentValue) (s1 : Sys) (err : UpdateError)
    (h : updateStep2 s key nv nvs old = (s1, .error err)) :
    s1.current_values = s.current_values ∧ s1.persistCurrent = s.persistCurrent := by
  rw [updateStep2] at h
  split at h
  · rename_i sA e hload
    have hfst : (doLoadHistory s key).1 = sA := by rw [hload]
    rw [doLoadHistory_fst] at hfst
    simp only [Prod.mk.injEq] at h
    rw [← h.1, ← hfst]
    exact ⟨rfl, rfl⟩
  · rename_i sA oldOpt hload
    have hfstA : (doLoadHistory s key).1 = sA := by rw [hload]
    rw [doLoadHistory_fst] at hfstA
    unfold updateStep3 at h
    dsimp only at h
    split at h
    · rename_i sB e hsave
      have hB := doSaveHistory_ok_frame sA key _ sB (by rw [hsave])
      simp only [Prod.mk.injEq] at h
      rw [← h.1]
      constructor
      · rw [(rollbackStep1_frame sB key old).1, hB.2.1, ← hfstA]
      · rw [(rollbackStep1_frame sB key old).2, hB.2.2, ← hfstA]
    · rename_i sB hsave
      have hB := doSaveHistory_ok_frame sA key _ sB (by rw [hsave])
      split at h
      · rename_i sC e hcur
        have hC := doSaveCurrent_err sB nvs sC e hcur
        simp only [Prod.mk.injEq] at h
        rw [← h.1]
        have hroll := rollbackStep1_frame sC key old
        have hfinal := doSaveHistory_ok_frame (rollbackStep1 sC key old) key
          (oldOpt.getD []) _ rfl
        constructor
        · rw [hfinal.2.1, hroll.1, hC.2.2, hB.2.1, ← hfstA]
        · rw [hfinal.2.2, hroll.2, hC.1, hB.2.2, ← hfstA]
      · simp at h

/-- Every failing `update()` call leaves both the in-memory and the persisted
snapshot untouched. -/
theorem updateOp_err_inv (s : Sys) (key : String) (value : Value) (who : String)
    (now : Int) (s1 : Sys) (err : UpdateError)
    (h : updateOp s key value who now = (s1, .error err)) :
    s1.current_values = s.current_values ∧ s1.persistCurrent = s.persistCurrent := by
  rw [updateOp] at h
  split at h
  · split at h
    · simp only [Prod.mk.injEq] at h
      rw [← h.1]
      exact ⟨rfl, rfl⟩
    · dsimp only at h
      split at h
      · simp only [Prod.mk.injEq] at h
        rw [← h.1]
        exact ⟨rfl, rfl⟩
      · rename_i fs old_value hsu
        have h2 := updateStep2_err_inv { s with feattles_struct := fs } key
          { modified_at := now, modified_by := who, value := value } _ old_value s1 err h
        exact ⟨h2.1, h2.2⟩
  · simp only [Prod.mk.injEq] at h
    rw [← h.1]
    exact ⟨rfl, rfl⟩

/-- A successful `reload` leaves the system in a state where the in-memory and
persisted snapshot versions agree. -/
theorem reloadOp_ok_versionInv (s0 : Sys) (now : Int) (s1 : Sys)
    (h : reloadOp s0 now = (s1, .ok ())) : versionInv s1 := by
  rw [reloadOp] at h
  split at h
  · simp at h
  · rename_i sA hload
    have hi := doLoadCurrent_ok_inv s0 sA none hload
    simp only [Prod.mk.injEq, and_true] at h
    intro cv pc hcv hpc
    rw [← h] at hpc
    dsimp only at hpc
    rw [hi.2.2.2.1, ← hi.1] at hpc
    cases hpc
  · rename_i sA cv' hload
    have hi := doLoadCurrent_ok_inv s0 sA (some cv') hload
    simp only [Prod.mk.injEq, and_true] at h
    intro cv pc hcv hpc
    rw [← h] at hcv hpc
    dsimp only at hcv hpc
    rw [hi.2.2.2.1, ← hi.1] at hpc
    simp only [Option.some.injEq] at hcv hpc
    rw [← hcv, ← hpc]

/-- `i32` arithmetic is only mathematical arithmetic inside the `i32` range:
`wrap32` is the identity there. -/
theorem wrap32_eq_self (n : Int) (hlo : IntWidth.i32.lo ≤ n) (hhi : n ≤ IntWidth.i32.hi) :
    wrap32 n = n := by
  simp only [IntWidth.lo, IntWidth.hi] at hlo hhi
  unfold wrap32
  omega

/-- One `update()` call: the invariant is preserved, a successful call
persists the wrapped `i32` increment of the previously persisted version
(exactly `+ 1` while that version is an in-range `i32` below `i32::MAX`), and
a failed call does not move the persisted snapshot. -/
theorem updateOp_version_step (s : Sys) (r : UpdReq) (hinv : versionInv s) :
    versionInv (updateOp s r.key r.value r.modified_by r.now).1
    ∧ (match (updateOp s r.key r.value r.modified_by r.now).2 with
       | .ok _ => ∀ pc, s.persistCurrent = some pc →
           ∃ nc, (updateOp s r.key r.value r.modified_by r.now).1.persistCurrent = some nc
             ∧ nc.version = wrap32 (pc.version + 1)
             ∧ (IntWidth.i32.lo ≤ pc.version → pc.version < IntWidth.i32.hi →
                 nc.version = pc.version + 1)
       | .error _ => (updateOp s r.key r.value r.modified_by r.now).1.persistCurrent
           = s.persistCurrent) := by
  rcases hstep : updateOp s r.key r.value r.modified_by r.now with ⟨s1, res⟩
  rcases res with err | u
  · have hframe := updateOp_err_inv _ _ _ _ _ _ _ hstep
    constructor
    · intro cv pc hcv hpc
      rw [hframe.1] at hcv
      rw [hframe.2] at hpc
      exact hinv cv pc hcv hpc
    · exact hframe.2
  · cases u
    obtain ⟨-, cur, fs1, old, hcur, -, -, hcv1, hpc1⟩ := updateOp_ok_inv _ _ _ _ _ _ hstep
    constructor
    · intro cv pc hcv hpc
      rw [hcv1] at hcv
      rw [hpc1] at hpc
      simp only [Option.some.injEq] at hcv hpc
      rw [← hcv, ← hpc]
    · intro pc hpc
      have hver : cur.version = pc.version := hinv cur pc hcur hpc
      refine ⟨_, hpc1, ?_, ?_⟩
      · simp only
        rw [hver]
      · intro hlo hhi
        simp only
        rw [hver, wrap32_eq_self (pc.version + 1) (by omega) (by omega)]

/-- The invariant propagates through any sequence of `update()` calls, giving
the version property of the whole trace. -/
theorem versionProp_of_inv (s : Sys) (hinv : versionInv s) (reqs : List UpdReq) :
    versionProp s (runUpdates s reqs) := by
  induction reqs generalizing s with
  | nil => trivial
  | cons r rest ih =>
    rw [runUpdates, versionProp]
    have hstep := updateOp_version_step s r hinv
    exact ⟨hstep.2, ih _ hstep.1⟩

/-- C3, amended: on a registry that has been successfully reloaded, along any
sequence of `update()` calls each successful call persists a snapshot whose
version is the wrapped `i32` increment of the previously persisted snapshot's
version — exactly one above it whenever that version is a valid `i32` strictly
below `i32::MAX`, which every state whose snapshot came from the modelled
operations satisfies — and each failed call leaves the persisted snapshot
unchanged.  At `i32::MAX` the `version += 1` of the source wraps to `i32::MIN`
in release builds (a debug build panics), so the unqualified "increases by
exactly 1" fails there (see the counterexample). -/
theorem version_monotonicity (s0 : Sys) (now : Int) (s1 : Sys)
    (hrel : reloadOp s0 now = (s1, .ok ())) (reqs : List UpdReq) :
    versionProp s1 (runUpdates s1 reqs) :=
  versionProp_of_inv s1 (reloadOp_ok_versionInv s0 now s1 hrel) reqs

theorem version_monotonicity_witness :
    versionProp (reloadOp c5Sys 4).1
      (runUpdates (reloadOp c5Sys 4).1
        [{ key := "b", value := Value.num (.posInt 3), modified_by := "w", now := 6 },
         { key := "b", value := Value.str "oops", modified_by := "w", now := 7 }]) :=
  version_monotonicity c5Sys 4 (reloadOp c5Sys 4).1 rfl
    [{ key := "b", value := Value.num (.posInt 3), modified_by := "w", now := 6 },
     { key := "b", value := Value.str "oops", modified_by := "w", now := 7 }]

/-- C3 counterexample: the unqualified claim fails at the `i32` boundary.
`c3WrapSys` has reloaded a stored snapshot whose version is `i32::MAX`
(`2147483647`, a legal wire value of the `i32` field of
`persist::CurrentValues`); the next `update()` succeeds, but the source's
`version += 1` on an `i32` wraps, so the persisted snapshot's version becomes
`-2147483648` = `i32::MIN`, not the previously persisted version plus one. -/
theorem version_monotonicity_counterexample :
    (updateOp c3WrapSys "a" (Value.num (.posInt 1)) "w" 1).2 = .ok ()
    ∧ c3WrapSys.persistCurrent.map (·.version) = some 2147483647
    ∧ (updateOp c3WrapSys "a" (Value.num (.posInt 1)) "w" 1).1.persistCurrent.map (·.version)
      = some (-2147483648)
    ∧ (-2147483648 : Int) ≠ 2147483647 + 1 := by
  refine ⟨rfl, rfl, rfl, by decide⟩

/-! ## C8: the codec round trip -/

theorem insertSet_append (c : α → α → Ordering) (x : α) :
    ∀ acc : List α, (∀ y ∈ acc, c x y = .gt) → insertSet c x acc = acc ++ [x] := by
  intro acc
  induction acc with
  | nil => intro _; rfl
  | cons y ys ih =>
    intro h
    have hy : c x y = .gt := h y (by simp)
    simp only [insertSet, hy, List.cons_append, List.cons.injEq, true_and]
    exact ih (fun z hz => h z (by simp [hz]))

theorem trySet_ok (f : Value → Except FromJsonError α) (c : α → α → Ordering)
    (g : α → Value) :
    ∀ (l acc : List α),
      (∀ x ∈ l, f (g x) = .ok x) →
      (∀ x ∈ l, ∀ y ∈ acc, c x y = .gt) →
      List.Pairwise (fun a b => c b a = .gt) l →
      trySet f c (l.map g) acc = .ok (acc ++ l) := by
  intro l
  induction l with
  | nil => intro acc _ _ _; simp [trySet]
  | cons x xs ih =>
    intro acc hparse hacc hpw
    simp only [List.map_cons, trySet, hparse x (by simp)]
    rw [insertSet_append c x acc (hacc x (by simp))]
    have hres := ih (acc ++ [x]) (fun y hy => hparse y (by simp [hy]))
      (fun z hz y hy => by
        rcases List.mem_append.1 hy with hy | hy
        · exact hacc z (by simp [hz]) y hy
        · rw [List.mem_singleton.1 hy]
          exact (List.pairwise_cons.1 hpw).1 z hz)
      (List.pairwise_cons.1 hpw).2
    rw [hres]
    simp

theorem insertMap_append (k : String) (v : α) :
    ∀ acc : List (String × α), (∀ p ∈ acc, compare k p.1 = .gt) →
      insertMap k v acc = acc ++ [(k, v)] := by
  intro acc
  induction acc with
  | nil => intro _; rfl
  | cons q qs ih =>
    intro h
    have hq : compare k q.1 = .gt := h q (by simp)
    simp only [insertMap, hq, List.cons_append, List.cons.injEq, true_and]
    exact ih (fun p hp => h p (by simp [hp]))

theorem foldIns_sorted :
    ∀ (pairs acc : List (String × α)),
      (∀ p ∈ pairs, ∀ q ∈ acc, compare p.1 q.1 = .gt) →
      List.Pairwise (fun p q => compare q.1 p.1 = .gt) pairs →
      pairs.foldl (fun acc p => insertMap p.1 p.2 acc) acc = acc ++ pairs := by
  intro pairs
  induction pairs with
  | nil => intro acc _ _; simp
  | cons p ps ih =>
    intro acc hacc hpw
    simp only [List.foldl_cons]
    rw [insertMap_append p.1 p.2 acc (hacc p (by simp))]
    have hres := ih (acc ++ [p]) (fun z hz q hq => by
        rcases List.mem_append.1 hq with hq | hq
        · exact hacc z (by simp [hz]) q hq
        · rw [List.mem_singleton.1 hq]
          exact (List.pairwise_cons.1 hpw).1 z hz)
      (List.pairwise_cons.1 hpw).2
    rw [hres]
    simp

theorem collectObj_sorted (pairs : List (String × Value))
    (hpw : List.Pairwise (fun p q => compare q.1 p.1 = .gt) pairs) :
    collectObj pairs = pairs := by
  have := foldIns_sorted pairs [] (by simp) hpw
  simpa [collectObj] using this

theorem tryMap_ok (f : Value → Except FromJsonError α) (g : α → Value) :
    ∀ (m acc : List (String × α)),
      (∀ p ∈ m, f (g p.2) = .ok p.2) →
      (∀ p ∈ m, ∀ q ∈ acc, compare p.1 q.1 = .gt) →
      List.Pairwise (fun p q => compare q.1 p.1 = .gt) m →
      tryMap f (m.map (fun p => (p.1, g p.2))) acc = .ok (acc ++ m) := by
  intro m
  induction m with
  | nil => intro acc _ _ _; simp [tryMap]
  | cons p ps ih =>
    intro acc hparse hacc hpw
    simp only [List.map_cons, tryMap, hparse p (by simp)]
    rw [insertMap_append p.1 p.2 acc (hacc p (by simp))]
    have hres := ih (acc ++ [p]) (fun q hq => hparse q (by simp [hq]))
      (fun z hz q hq => by
        rcases List.mem_append.1 hq with hq | hq
        · exact hacc z (by simp [hz]) q hq
        · rw [List.mem_singleton.1 hq]
          exact (List.pairwise_cons.1 hpw).1 z hz)
      (List.pairwise_cons.1 hpw).2
    rw [hres]
    simp

theorem tryList_ok (f : Value → Except FromJsonError α) (g : α → Value) :
    ∀ l : List α, (∀ x ∈ l, f (g x) = .ok x) → tryList f (l.map g) = .ok l := by
  intro l
  induction l with
  | nil => intro _; rfl
  | cons x xs ih =>
    intro h
    simp only [List.map_cons, tryList, h x (by simp),
      ih (fun y hy => h y (by simp [hy]))]

theorem getD_mem : ∀ (l : List String) (i : Nat), i < l.length → l.getD i "" ∈ l := by
  intro l
  induction l with
  | nil => intro i h; simp at h
  | cons x xs ih =>
    intro i h
    cases i with
    | zero => simp [List.getD]
    | succ j =>
      simp only [List.length_cons, Nat.succ_lt_succ_iff] at h
      have := ih j h
      simp only [List.getD_cons_succ]
      exact List.mem_cons_of_mem x this

theorem enumFromStrAux_ok (variants : List String) :
    ∀ (i j : Nat), variants.Nodup → i < variants.length →
      enumFromStrAux variants (variants.getD i "") j = .ok (j + i) := by
  induction variants with
  | nil => intro i j _ h; simp at h
  | cons v rest ih =>
    intro i j hnd hlen
    cases i with
    | zero => simp [enumFromStrAux, List.getD]
    | succ k =>
      simp only [List.length_cons, Nat.succ_lt_succ_iff] at hlen
      simp only [List.nodup_cons] at hnd
      have hne : v ≠ rest.getD k "" := by
        intro he
        exact hnd.1 (he ▸ getD_mem rest k hlen)
      simp only [enumFromStrAux, List.getD_cons_succ]
      have harith : j + 1 + k = j + (k + 1) := by omega
      rw [if_neg hne, ih k (j + 1) hnd.2 hlen, harith]

theorem pairwiseSorted_pairwise (r : α → α → Bool) :
    ∀ l : List α, pairwiseSorted r l = true →
      List.Pairwise (fun a b => r a b = true) l := by
  intro l
  induction l with
  | nil => intro _; exact List.Pairwise.nil
  | cons x xs ih =>
    intro h
    simp only [pairwiseSorted, Bool.and_eq_true, List.all_eq_true] at h
    exact List.Pairwise.cons h.1 (ih h.2)

/-- C8, amended: the codec round trip `try_from_json (as_json v) = Ok(v)`
holds for every valid value of every type in the (float-free) universe —
`bool`, each integer width, `String`, string enums, `Vec`, `BTreeSet`,
`BTreeMap` and `Option` — under the two restrictions the code forces:
integer scalars must be representable in `i64` (the parser narrows through
`extract_i64`, so `u64`/`usize` values above `i64::MAX` fail), and no
`Some(None)` sits immediately under an `Option` (it serializes to `Null` and
parses back as `None`).  Floats are excluded: their serialization is partial
(see the float-partiality theorem). -/
theorem codec_round_trip_good (t : FTy) :
    ∀ v : interp t, goodValue t v = true → tryFromJson t (asJson t v) = .ok v := by
  induction t with
  | bool =>
    intro v _
    cases v <;> rfl
  | int w =>
    intro n h
    simp only [goodValue, Bool.and_eq_true, decide_eq_true_eq] at h
    obtain ⟨⟨hlo, hhi⟩, hmax⟩ := h
    by_cases hn : 0 ≤ n
    · simp only [asJson, if_pos hn, tryFromJson, extractI64, Number.as_i64]
      rw [Int.toNat_of_nonneg hn, if_pos hmax]
      simp only
      rw [if_pos ⟨hlo, hhi⟩]
    · simp only [asJson, if_neg hn, tryFromJson, extractI64, Number.as_i64]
      rw [if_pos ⟨hlo, hhi⟩]
  | str =>
    intro s _
    rfl
  | strEnum variants =>
    intro i h
    simp only [goodValue, Bool.and_eq_true, decide_eq_true_eq] at h
    obtain ⟨hlen, hnd⟩ := h
    simp only [asJson, tryFromJson, extractStr, enumFromStr]
    have := enumFromStrAux_ok variants i 0 hnd hlen
    simpa using this
  | list t ih =>
    intro l h
    simp only [goodValue, List.all_eq_true] at h
    simp only [asJson, tryFromJson, extractArray]
    exact tryList_ok (tryFromJson t) (asJson t) l (fun x hx => ih x (h x hx))
  | set t ih =>
    intro l h
    simp only [goodValue, Bool.and_eq_true, List.all_eq_true] at h
    obtain ⟨hall, hsort⟩ := h
    have hpw : List.Pairwise (fun a b => cmpF t b a = .gt) l := by
      refine (pairwiseSorted_pairwise _ l hsort).imp ?_
      intro a b hab
      rw [Bool.and_eq_true] at hab
      exact of_decide_eq_true hab.2
    simp only [asJson, tryFromJson, extractArray]
    have := trySet_ok (tryFromJson t) (cmpF t) (asJson t) l []
      (fun x hx => ih x (hall x hx)) (by simp) hpw
    simpa using this
  | map t ih =>
    intro m h
    simp only [goodValue, Bool.and_eq_true, List.all_eq_true] at h
    obtain ⟨hall, hsort⟩ := h
    have hpw : List.Pairwise (fun p q => compare q.1 p.1 = .gt) m := by
      refine (pairwiseSorted_pairwise _ m hsort).imp ?_
      intro p q hpq
      rw [Bool.and_eq_true] at hpq
      exact of_decide_eq_true hpq.2
    have hpwm : List.Pairwise (fun p q => compare q.1 p.1 = .gt)
        (m.map (fun p => (p.1, asJson t p.2))) := by
      rw [List.pairwise_map]
      exact hpw
    simp only [asJson, tryFromJson, extractObject]
    rw [collectObj_sorted _ hpwm]
    have := tryMap_ok (tryFromJson t) (asJson t) m []
      (fun p hp => ih p.2 (hall p hp)) (by simp) hpw
    simpa using this
  | option t ih =>
    intro o h
    rcases o with _ | x
    · rfl
    · simp only [goodValue, Bool.and_eq_true] at h
      obtain ⟨hg, hnn⟩ := h
      have hx := ih x hg
      simp only [asJson]
      rcases hv : asJson t x with _ | b | n | s2 | items | fields
      · rw [hv] at hnn; simp [Value.isNull] at hnn
      all_goals (rw [hv] at hx; simp only [tryFromJson]; rw [hx]; rfl)

theorem codec_round_trip_good_witness :
    goodValue (FTy.map (FTy.list (FTy.option (FTy.int .u8))))
      [("a", [some 3, none]), ("b", [])] = true
    ∧ tryFromJson (FTy.map (FTy.list (FTy.option (FTy.int .u8))))
        (asJson (FTy.map (FTy.list (FTy.option (FTy.int .u8))))
          [("a", [some 3, none]), ("b", [])])
      = .ok [("a", [some 3, none]), ("b", [])] :=
  ⟨by decide, codec_round_trip_good (FTy.map (FTy.list (FTy.option (FTy.int .u8))))
    [("a", [some 3, none]), ("b", [])] (by decide)⟩

/-- C8 counterexample: the unrestricted claim is false.  `2^63` is a valid
`u64` value (within the type's range), `as_json` serializes it losslessly,
but `try_from_json` narrows through `extract_i64` (`Value::as_i64`), which
rejects integers above `i64::MAX`, so the round trip returns `WrongKind`
instead of `Ok(2^63)`. -/
theorem codec_round_trip_counterexample :
    ((0 : Int) ≤ 2 ^ 63 ∧ (2 : Int) ^ 63 ≤ IntWidth.u64.hi)
    ∧ tryFromJson (FTy.int .u64) (asJson (FTy.int .u64) ((2 : Int) ^ 63))
      = .error (.wrongKind "Number::i64" "Number")
    ∧ (Except.error (FromJsonError.wrongKind "Number::i64" "Number")
        : Except FromJsonError (interp (FTy.int .u64)))
      ≠ .ok ((2 : Int) ^ 63) := by
  refine ⟨by decide, rfl, by simp⟩

/-! ## C9: overview truncation -/

/-- C9: the overview of a sequence prints at most its first three elements and
then `", ... N more"`, `N` being the number of omitted elements; in particular
the six-integer list `[3, 14, 15, 92, 65, 35]` renders exactly as
`"[3, 14, 15, ... 3 more]"`. -/
theorem overview_truncation :
    overviewF (FTy.list (FTy.int .i32)) [3, 14, 15, 92, 65, 35] = "[3, 14, 15, ... 3 more]"
    ∧ (∀ t : FTy, ∀ l : List (interp t),
        overviewF (FTy.list t) l = "[" ++ iterOverview (l.map (overviewF t)) ++ "]")
    ∧ (∀ x1 x2 x3 x4 : String, ∀ rest : List String,
        iterOverview (x1 :: x2 :: x3 :: x4 :: rest) =
          x1 ++ ", " ++ x2 ++ ", " ++ x3 ++ ", ... " ++ toString (rest.length + 1) ++ " more")
    ∧ iterOverview [] = ""
    ∧ (∀ x1 : String, iterOverview [x1] = x1)
    ∧ (∀ x1 x2 : String, iterOverview [x1, x2] = x1 ++ ", " ++ x2)
    ∧ (∀ x1 x2 x3 : String, iterOverview [x1, x2, x3] = x1 ++ ", " ++ x2 ++ ", " ++ x3) :=
  ⟨rfl, fun _ _ => rfl, fun _ _ _ _ _ => rfl, rfl, fun _ => rfl, fun _ _ => rfl,
    fun _ _ _ => rfl⟩

/-! ## C10: float serialization is partial -/

/-- C10: `as_json` on `f32`/`f64` unwraps `Number::from_f64`, which is `None`
exactly on non-finite floats, so serialization panics (modelled as `none`) for
every NaN or infinite value and succeeds exactly on the finite ones. -/
theorem float_as_json_partial :
    (∀ v : F64, f64AsJson v = none ↔ v.isFinite = false)
    ∧ (∀ v : F32, f32AsJson v = none ↔ v.isFinite = false) := by
  constructor
  · intro v; cases v <;> simp [f64AsJson, Number.from_f64, F64.isFinite]
  · intro v; cases v <;> simp [f32AsJson, Number.from_f64, F32.toF64, F32.isFinite]

end Feattles
